import Mathlib

/-!
Verification of the FIH rules-engine core: the hierarchical document
chunker and visual block sorter (`src/loaders/document_ai_common.py`)
and the scoped persistence / hybrid-retrieval layer (`src/database.py`).

Text is modelled as Lean `String` (Python `str`); the ASCII character
classes of the Python regexes (`\d`, `\s`, `[A-Z]`, `[A-Za-z]`) are
modelled over code points.  Normalized page coordinates (Python floats
in `[0,1]`) are modelled as rationals.
-/

/- Rational arithmetic is `@[irreducible]` in the library, which blocks
kernel evaluation of concrete geometry and scores in witnesses; restore
the default reducibility (the kernel re-checks everything regardless). -/
set_option allowUnsafeReducibility true

attribute [local semireducible] Rat.add Rat.mul Rat.inv Rat.sub Rat.ofScientific

namespace FihRules

/-! ## Character classes (Python regex classes, ASCII) -/

/-- Python regex `\d` (ASCII digits `0`-`9`). -/
def isDigitC (c : Char) : Bool := 48 ≤ c.toNat && c.toNat ≤ 57

/-- Python regex `\s`: space, tab, newline, carriage return, vertical tab, form feed. -/
def isWSC (c : Char) : Bool :=
  c.toNat = 32 || c.toNat = 9 || c.toNat = 10 || c.toNat = 13 || c.toNat = 11 || c.toNat = 12

/-- Python regex class `[A-Z]`. -/
def isUpperC (c : Char) : Bool := 65 ≤ c.toNat && c.toNat ≤ 90

/-- Python regex class `[A-Za-z]`. -/
def isAlphaC (c : Char) : Bool :=
  isUpperC c || (97 ≤ c.toNat && c.toNat ≤ 122)

/-- Python regex class `[1-9]`. -/
def isNZDigit (c : Char) : Bool := 49 ≤ c.toNat && c.toNat ≤ 57

theorem not_upper_of_digit {c : Char} (h : isDigitC c = true) : isUpperC c = false := by
  simp only [isDigitC, Bool.and_eq_true, decide_eq_true_eq] at h
  simp only [isUpperC, Bool.and_eq_false_iff, decide_eq_false_iff_not]
  omega

theorem not_ws_of_digit {c : Char} (h : isDigitC c = true) : isWSC c = false := by
  simp only [isDigitC, Bool.and_eq_true, decide_eq_true_eq] at h
  simp only [isWSC, Bool.or_eq_false_iff, decide_eq_false_iff_not]
  omega

theorem digit_of_nz {c : Char} (h : isNZDigit c = true) : isDigitC c = true := by
  simp only [isNZDigit, Bool.and_eq_true, decide_eq_true_eq] at h
  simp only [isDigitC, Bool.and_eq_true, decide_eq_true_eq]
  omega

theorem dot_not_digit : isDigitC '.' = false := by decide

theorem dot_not_ws : isWSC '.' = false := by decide

/-- `str.strip()` of Python, over a character list. -/
def stripL (l : List Char) : List Char :=
  ((l.dropWhile isWSC).reverse.dropWhile isWSC).reverse

/-- `str.strip()` of Python. -/
def stripS (s : String) : String := ⟨stripL s.data⟩

/-- `s.endswith(".")` of Python. -/
def endsDotS (s : String) : Bool :=
  match s.data.getLast? with
  | some c => c = '.'
  | none => false

theorem length_dropWhile_le (p : Char → Bool) :
    ∀ l : List Char, (l.dropWhile p).length ≤ l.length := by
  intro l
  induction l with
  | nil => simp [List.dropWhile]
  | cons x xs ih =>
      by_cases h : p x
      · simpa [List.dropWhile, h] using Nat.le_succ_of_le ih
      · simp [List.dropWhile, h]

/-! ## The regex matchers of `_layout_chunking`

`header_pattern  = ^((Rule\s+)?([1-9]|1[0-9])(\.\d+)+|Rule\s+\d+)` (IGNORECASE)
`section_pattern = ^\d+\s+[A-Za-z].*`
`chapter_pattern = ^[A-Z\s]{4,}$`
`section_num_pattern = ^\d+$`

`re.match` anchors at the start only; the matchers below follow the
backtracking semantics of the Python engine on these concrete patterns
(greedy `\s+`, `\d+` and `(\.\d+)+`, leftmost alternation).
-/

/-- Digit state of the greedy `(\.\d+)+` matcher: after a `.digit`
start, consume further digits and further `.digit` groups, returning
the consumed characters and the remainder. -/
def dnGo : List Char → List Char × List Char
  | [] => ([], [])
  | c :: rest =>
    if isDigitC c then
      let (a, b) := dnGo rest
      (c :: a, b)
    else if c = '.' then
      match rest with
      | [] => ([], c :: rest)
      | c2 :: rest2 =>
        if isDigitC c2 then
          let (a, b) := dnGo rest2
          (c :: c2 :: a, b)
        else ([], c :: rest)
    else ([], c :: rest)

/-- `(\.\d+)+`, greedy: returns the consumed characters and the
remainder, or `none` when the text does not start with `.` and a
digit. -/
def dottedNum : List Char → Option (List Char × List Char)
  | '.' :: c :: rest =>
    if isDigitC c then
      let (a, b) := dnGo rest
      some ('.' :: c :: a, b)
    else none
  | _ => none

/-- `([1-9]|1[0-9])(\.\d+)+` with the Python engine's alternative order:
`[1-9]` is tried first, then (on failure of the dotted tail) `1[0-9]`. -/
def numPart : List Char → Option (List Char × List Char)
  | [] => none
  | c :: rest =>
    if isNZDigit c then
      match dottedNum rest with
      | some (d, r) => some (c :: d, r)
      | none =>
        if c = '1' then
          match rest with
          | c2 :: rest2 =>
            if isDigitC c2 then
              match dottedNum rest2 with
              | some (d, r) => some (c :: c2 :: d, r)
              | none => none
            else none
          | [] => none
        else none
    else none

/-- `Rule\s+` case-insensitively, greedy whitespace. -/
def rulePfx : List Char → Option (List Char × List Char)
  | a :: b :: c :: d :: rest =>
    if a.toLower = 'r' && b.toLower = 'u' && c.toLower = 'l' && d.toLower = 'e' then
      match rest.takeWhile isWSC, rest.dropWhile isWSC with
      | [], _ => none
      | ws, rest2 => some (a :: b :: c :: d :: ws, rest2)
    else none
  | _ => none

/-- `header_pattern.match(t)` returning `group(1)`.  Alternative 1 with
the optional `Rule\s+` present is tried first; if its numeric tail
fails, the prefix-absent form cannot match (the text starts with a
letter), and alternative 2 (`Rule\s+\d+`) is tried. -/
def headerMatch (l : List Char) : Option (List Char) :=
  match rulePfx l with
  | some (p, rest) =>
    match numPart rest with
    | some (n, _) => some (p ++ n)
    | none =>
      match rest.takeWhile isDigitC with
      | [] => none
      | ds => some (p ++ ds)
  | none => (numPart l).map Prod.fst

def headerMatchS (s : String) : Option String :=
  (headerMatch s.data).map (fun l => ⟨l⟩)

/-- `chapter_pattern.match(t)`: the whole text is made of `[A-Z\s]` and
has length at least 4 (the `$` nuance with a trailing newline is
absorbed by `\n` being in the class). -/
def chapterPatS (s : String) : Bool :=
  decide (4 ≤ s.data.length) && s.data.all (fun c => isUpperC c || isWSC c)

/-- `section_pattern.match(t)`: one or more digits, one or more
whitespace characters, then an ASCII letter. -/
def sectionPatS (s : String) : Bool :=
  let ds := s.data.takeWhile isDigitC
  let r1 := s.data.dropWhile isDigitC
  let ws := r1.takeWhile isWSC
  let r2 := r1.dropWhile isWSC
  !ds.isEmpty && !ws.isEmpty &&
    (match r2 with
     | c :: _ => isAlphaC c
     | [] => false)

/-- `section_num_pattern.match(t)` on stripped text: all digits, nonempty. -/
def sectionNumPatS (s : String) : Bool :=
  !s.data.isEmpty && s.data.all isDigitC

/-! ## Data model of the chunker (`_layout_chunking`)

A `RawBlock` is a Document AI block: its anchored text (text-anchor
resolution by `_get_text` is modelled as the stored string) and the
`normalized_vertices` of its bounding polygon as `(x, y)` rationals.
-/

structure RawBlock where
  text : String
  verts : List (ℚ × ℚ)
deriving DecidableEq, Repr

structure PageB where
  num : ℤ
  blocks : List RawBlock
deriving DecidableEq, Repr

structure Shard where
  pages : List PageB
deriving DecidableEq, Repr

/-- An emitted `langchain` `Document`: content plus the metadata map
written by `_layout_chunking` (field `sect` models the `section` key,
which is a reserved word in Lean). -/
structure Chunk where
  content : String
  source : String
  rule : String
  variant : String
  chapter : String
  sect : String
  page : ℤ
  content_type : String
deriving DecidableEq, Repr

/-- The mutable chunking context: `current_chunk_text`, `current_rule`,
`current_chapter`, `current_section`, `current_content_type`,
`pending_section_num`. -/
structure CState where
  text : String
  rule : String
  chapter : String
  sect : String
  ctype : String
  pending : Option String
deriving DecidableEq, Repr

def initState : CState :=
  { text := "", rule := "Front Matter", chapter := "General",
    sect := "General", ctype := "body", pending := none }

/-- Python `min` over a nonempty list (the `[]` default is unreachable
at call sites). -/
def minQ : List ℚ → ℚ
  | [] => 0
  | x :: xs => xs.foldl min x

def maxQ : List ℚ → ℚ
  | [] => 0
  | x :: xs => xs.foldl max x

/-- Spatial filter of rule detection: `is_in_content_zone` is `True`
unless the block has vertices whose maximal `y` exceeds `0.95`. -/
def inContentZone (verts : List (ℚ × ℚ)) : Bool :=
  match verts with
  | [] => true
  | _ => decide (maxQ (verts.map Prod.snd) ≤ 19/20)

/-- The `Document` built at every flush site: content is the stripped
accumulation; `rule` and `section` are `"N/A"` outside body pages. -/
def mkChunk (variant : String) (pageNum : ℤ) (st : CState) : Chunk :=
  { content := stripS st.text
    source := "PDF (DocAI-Layout)"
    rule := if st.ctype = "body" then st.rule else "N/A"
    variant := variant
    chapter := st.chapter
    sect := if st.ctype = "body" then st.sect else "N/A"
    page := pageNum
    content_type := st.ctype }

/-- Flush `current_chunk_text` if it strips to nonempty (the guard
`if current_chunk_text.strip():` before chapter/section/pending flushes). -/
def flushIf (variant : String) (pageNum : ℤ) (st : CState) : CState × List Chunk :=
  if stripS st.text = "" then (st, [])
  else ({ st with text := "" }, [mkChunk variant pageNum st])

/-- Block classification after pending-number resolution: chapter
header, section header, rule header (gated by the content zone),
standalone number, or plain content.  `t` is the stripped block text. -/
def coreStep (variant : String) (pageNum : ℤ) (st : CState) (t : String)
    (verts : List (ℚ × ℚ)) : CState × List Chunk :=
  if chapterPatS t then
    let (st1, cs) := flushIf variant pageNum st
    ({ st1 with chapter := t, rule := "General" }, cs)
  else if sectionPatS t then
    let (st1, cs) := flushIf variant pageNum st
    ({ st1 with sect := t, rule := "General" }, cs)
  else
    match (if inContentZone verts then headerMatchS t else none) with
    | some g =>
        let cs := if 20 < st.text.length then [mkChunk variant pageNum st] else []
        ({ st with rule := g, text := t ++ " " }, cs)
    | none =>
        if sectionNumPatS t then ({ st with pending := some t }, [])
        else ({ st with text := st.text ++ t ++ "\n" }, [])

/-- One iteration of the block loop: skip whitespace-only blocks,
resolve a pending section number (short-title test), then classify. -/
def stepBlock (variant : String) (pageNum : ℤ) (st : CState) (b : RawBlock) :
    CState × List Chunk :=
  let t := stripS b.text
  if t = "" then (st, [])
  else
    match st.pending with
    | some p =>
        let isSpecial := chapterPatS t || (headerMatchS t).isSome || sectionNumPatS t
        let looksContent := decide (40 < t.length) || endsDotS t
        if !isSpecial && !looksContent then
          let (st1, cs) := flushIf variant pageNum st
          ({ st1 with sect := p ++ " " ++ t, pending := none }, cs)
        else
          coreStep variant pageNum { st with text := st.text ++ p ++ "\n", pending := none }
            t b.verts
    | none => coreStep variant pageNum st t b.verts

/-! ## `_sort_blocks_visually` (Block Geometry Sorter)

Python `list.sort(key=...)` is a stable ascending sort; it is modelled
by `List.insertionSort` on the non-strict key comparison, which is
likewise stable.
-/

/-- A block enhanced with `top = min y`, `bottom = max y`,
`left = min x`, defaulting to zeroes when geometry is missing. -/
structure Enh where
  blk : RawBlock
  top : ℚ
  bottom : ℚ
  left : ℚ
deriving DecidableEq, Repr

def enhance (b : RawBlock) : Enh :=
  match b.verts with
  | [] => ⟨b, 0, 0, 0⟩
  | _ => ⟨b, minQ (b.verts.map Prod.snd), maxQ (b.verts.map Prod.snd),
          minQ (b.verts.map Prod.fst)⟩

def topLe (a b : Enh) : Prop := a.top ≤ b.top

def leftLe (a b : Enh) : Prop := a.left ≤ b.left

instance : DecidableRel topLe := fun a b => inferInstanceAs (Decidable (a.top ≤ b.top))

instance : DecidableRel leftLe := fun a b => inferInstanceAs (Decidable (a.left ≤ b.left))

def sortTop (l : List Enh) : List Enh := l.insertionSort topLe

def sortLeft (l : List Enh) : List Enh := l.insertionSort leftLe

/-- Vertical center of a block. -/
def centerY (e : Enh) : ℚ := (e.top + e.bottom) / 2

/-- The row-membership test: the item's center falls inside the row
reference's `[top, bottom]` band. -/
def inBand (ref x : Enh) : Bool :=
  decide (ref.top ≤ centerY x) && decide (centerY x ≤ ref.bottom)

/-- The greedy row-grouping loop: `row` is the current row (its head is
the row reference, the first block placed in it); finalized rows are
emitted sorted left-to-right. -/
def rowsGo (row : List Enh) : List Enh → List Enh
  | [] => sortLeft row
  | x :: xs =>
    match row with
    | [] => rowsGo [x] xs
    | ref :: _ =>
      if inBand ref x then rowsGo (row ++ [x]) xs
      else sortLeft row ++ rowsGo [x] xs

def groupRows : List Enh → List Enh
  | [] => []
  | x :: xs => rowsGo [x] xs

def sort_blocks_visually (blocks : List RawBlock) : List RawBlock :=
  (groupRows (sortTop (blocks.map enhance))).map Enh.blk

/-! ## The page and shard drivers of `_layout_chunking` -/

/-- The flush performed when the externally supplied page content type
changes, with its distinctive page-number arithmetic, followed by the
content-type update. -/
def ctFlush (variant : String) (pageNum : ℤ) (st : CState) (pct : String) :
    CState × List Chunk :=
  if pct = st.ctype then (st, [])
  else if stripS st.text = "" then ({ st with ctype := pct }, [])
  else ({ st with text := "", ctype := pct },
        [mkChunk variant (if 1 < pageNum then pageNum - 1 else 1) st])

/-- `page_config.get(page_number, {}).get("content_type", "body")`. -/
def pageCT (cfg : ℤ → Option String) (n : ℤ) : String := (cfg n).getD "body"

def pageStep (variant : String) (cfg : ℤ → Option String) (st : CState) (p : PageB) :
    CState × List Chunk :=
  let (st1, cs1) := ctFlush variant p.num st (pageCT cfg p.num)
  let (st2, cs2) := (sort_blocks_visually p.blocks).foldl
    (fun acc b =>
      let (st', cs') := stepBlock variant p.num acc.1 b
      (st', acc.2 ++ cs'))
    (st1, ([] : List Chunk))
  (st2, cs1 ++ cs2)

/-- Per-shard page loop (`if not shard.pages: continue` is the fold
over the empty list). -/
def shardStep (variant : String) (cfg : ℤ → Option String) (st : CState) (sh : Shard) :
    CState × List Chunk :=
  sh.pages.foldl
    (fun acc p =>
      let (st', cs) := pageStep variant cfg acc.1 p
      (st', acc.2 ++ cs))
    (st, ([] : List Chunk))

/-- `shard.pages[-1].page_number if shard.pages else 0` where `shard`
is the last element iterated by the shard loop. -/
def lastPageNum (shards : List Shard) : ℤ :=
  match shards.getLast? with
  | some sh =>
    match sh.pages.getLast? with
    | some p => p.num
    | none => 0
  | none => 0

/-- The `# Flush last` epilogue: guarded by raw (unstripped) truthiness
of `current_chunk_text`; the pending section number is not consulted. -/
def finalFlush (variant : String) (shards : List Shard) (st : CState) : List Chunk :=
  if st.text = "" then [] else [mkChunk variant (lastPageNum shards) st]

/-- `_layout_chunking(docai_shards, variant, page_config)`. -/
def layout_chunking (shards : List Shard) (variant : String)
    (cfg : ℤ → Option String) : List Chunk :=
  let (st, cs) := shards.foldl
    (fun acc sh =>
      let (st', cs') := shardStep variant cfg acc.1 sh
      (st', acc.2 ++ cs'))
    (initState, ([] : List Chunk))
  cs ++ finalFlush variant shards st

/-! ## `PostgresVectorDB` (`src/database.py`)

The table is modelled as a list of rows in insertion order; `id` is the
`SERIAL` primary key.  Of the JSONB metadata the scoping and indexing
logic reads the keys `country`, `type`, `rule` and `section`; Python
dictionary `get` truthiness (`None` and `""` are falsy) is modelled
explicitly.
-/

structure Meta where
  country : Option String
  mtype : Option String
  rule : Option String
  sect : Option String
deriving DecidableEq, Repr

structure DBRow where
  id : ℕ
  content : String
  variant : String
  meta : Meta
deriving DecidableEq, Repr

/-- Python truthiness of an optional string (`None` and `""` are falsy). -/
def truthyS : Option String → Bool
  | some s => !(s = "")
  | none => false

/-- `insert_batch`: the full-text configuration chosen per record,
`'simple' if country else 'english'`. -/
def insertFtsConfig (m : Meta) : String :=
  if truthyS m.country then "simple" else "english"

/-- `" ".join(parts)` of Python. -/
def joinSpace : List String → String
  | [] => ""
  | [x] => x
  | x :: y :: xs => x ++ " " ++ joinSpace (y :: xs)

/-- `insert_batch`: the searchable text, content plus the `rule` and
`section` metadata values when truthy, joined by spaces. -/
def searchText (content : String) (m : Meta) : String :=
  joinSpace
    ([content] ++ (if truthyS m.rule then [m.rule.getD ""] else [])
               ++ (if truthyS m.sect then [m.sect.getD ""] else []))

/-- `search_hybrid`: the full-text configuration chosen from the
`country_code` argument (`'simple' if country_code else 'english'`). -/
def searchFtsConfig (cc : Option String) : String :=
  if truthyS cc then "simple" else "english"

/-- The official-scope SQL condition
`metadata->>'country' IS NULL OR metadata->>'type' = 'official'`. -/
def officialCond (r : DBRow) : Bool :=
  r.meta.country = none || r.meta.mtype = some "official"

/-- The row filter of `search_hybrid` (and of `delete_scoped_data` /
`variant_exists`): variant match plus the per-scope condition, where a
falsy `country_code` selects the official branch. -/
def scopeFilter (variant : String) (cc : Option String) (r : DBRow) : Bool :=
  r.variant = variant &&
    (if truthyS cc then r.meta.country = cc else officialCond r)

/-- `delete_scoped_data(variant, country_code)`: a SQL `DELETE` keeps
exactly the rows not matching the scope condition. -/
def delete_scoped_data (tbl : List DBRow) (variant : String) (cc : Option String) :
    List DBRow :=
  tbl.filter (fun r => !scopeFilter variant cc r)

/-! ## `search_hybrid` (Reciprocal Rank Fusion)

The two SQL sub-queries order by `embedding <=> :vector` (ascending
distance) and `ts_rank(...) DESC`; the externally computed primitives —
cosine distance, `ts_rank`, and the `tsv @@ query` match — are
parameters `dist`, `tsr`, `tsM` indexed by row id.  A SQL `ORDER BY`
does not determine the relative order of rows with equal keys, so each
sorted stage is modelled relationally: any key-sorted permutation of
the relevant rows is an admissible outcome.
-/

structure SearchHit where
  content : String
  variant : String
  meta : Meta
  score : ℚ
deriving DecidableEq, Repr

/-- `ROW_NUMBER() OVER (...)` score assignment of one candidate list:
row number `n + 1` (1-based) gives score `1.0 / (ROW_NUMBER() + 60)`. -/
def rankScores (n : ℕ) : List DBRow → List (ℕ × ℚ)
  | [] => []
  | r :: rs => (r.id, 1 / ((n : ℚ) + 61)) :: rankScores (n + 1) rs

/-- `COALESCE(score, 0)` via lookup by id. -/
def lookupScore : List (ℕ × ℚ) → ℕ → ℚ
  | [], _ => 0
  | p :: ps, i => if p.1 = i then p.2 else lookupScore ps i

/-- The id set of the `FULL OUTER JOIN` of the two candidate lists. -/
def candIds (vl kl : List DBRow) : List ℕ :=
  vl.map DBRow.id ++ (kl.map DBRow.id).filter (fun i => !(vl.map DBRow.id).contains i)

/-- One output row of the join: payload columns re-read from the table
by id, fused score `COALESCE(v,0) + COALESCE(k,0)`. -/
def hitOf (tbl vl kl : List DBRow) (i : ℕ) : Option SearchHit :=
  (tbl.find? (fun r => r.id = i)).map
    (fun r => ⟨r.content, r.variant, r.meta,
               lookupScore (rankScores 0 vl) i + lookupScore (rankScores 0 kl) i⟩)

/-- All fused candidates of the join (unordered pool). -/
def candHits (tbl vl kl : List DBRow) : List SearchHit :=
  (candIds vl kl).filterMap (hitOf tbl vl kl)

/-- A list sorted weakly ascending by a rational key. -/
def keyAsc (key : α → ℚ) (l : List α) : Prop :=
  l.Chain' (fun a b => key a ≤ key b)

/-- A list sorted weakly descending by a rational key. -/
def keyDesc (key : α → ℚ) (l : List α) : Prop :=
  l.Chain' (fun a b => key b ≤ key a)

/-- Multiset equality (an arbitrary reordering, as a SQL engine may
produce for equal sort keys). -/
def permOf [DecidableEq α] (l₁ l₂ : List α) : Prop := ∀ x : α, l₁.count x = l₂.count x

instance [DecidableEq α] (l₁ l₂ : List α) : Decidable (permOf l₁ l₂) :=
  decidable_of_iff (∀ x ∈ l₁ ++ l₂, l₁.count x = l₂.count x) (by
    constructor
    · intro h x
      by_cases hx : x ∈ l₁ ++ l₂
      · exact h x hx
      · simp only [List.mem_append, not_or] at hx
        rw [List.count_eq_zero_of_not_mem hx.1, List.count_eq_zero_of_not_mem hx.2]
    · intro h x _
      exact h x)

/-- Executable check for `keyAsc`. -/
def ascChk (key : α → ℚ) : List α → Bool
  | a :: b :: t => decide (key a ≤ key b) && ascChk key (b :: t)
  | _ => true

/-- Executable check for `keyDesc`. -/
def descChk (key : α → ℚ) : List α → Bool
  | a :: b :: t => decide (key b ≤ key a) && descChk key (b :: t)
  | _ => true

theorem ascChk_iff (key : α → ℚ) : ∀ l, ascChk key l = true ↔ keyAsc key l
  | [] => by simp [ascChk, keyAsc]
  | [a] => by simp [ascChk, keyAsc]
  | a :: b :: t => by
      rw [keyAsc, List.chain'_cons]
      simp only [ascChk, Bool.and_eq_true, decide_eq_true_eq]
      rw [ascChk_iff key (b :: t)]
      rfl

theorem descChk_iff (key : α → ℚ) : ∀ l, descChk key l = true ↔ keyDesc key l
  | [] => by simp [descChk, keyDesc]
  | [a] => by simp [descChk, keyDesc]
  | a :: b :: t => by
      rw [keyDesc, List.chain'_cons]
      simp only [descChk, Bool.and_eq_true, decide_eq_true_eq]
      rw [descChk_iff key (b :: t)]
      rfl

instance (key : α → ℚ) (l : List α) : Decidable (keyAsc key l) :=
  decidable_of_iff _ (ascChk_iff key l)

instance (key : α → ℚ) (l : List α) : Decidable (keyDesc key l) :=
  decidable_of_iff _ (descChk_iff key l)

/-- The `vector_search` CTE: some ascending-distance ordering of the
scoped rows, truncated to 50. -/
def vecAdmissible (tbl : List DBRow) (variant : String) (cc : Option String)
    (dist : ℕ → ℚ) (vl : List DBRow) : Prop :=
  ∃ full, permOf full (tbl.filter (scopeFilter variant cc)) ∧
    keyAsc (fun r => dist r.id) full ∧ vl = full.take 50

/-- The `keyword_search` CTE: some descending-`ts_rank` ordering of the
scoped rows matching the query, truncated to 50. -/
def kwAdmissible (tbl : List DBRow) (variant : String) (cc : Option String)
    (tsr : ℕ → ℚ) (tsM : ℕ → Bool) (kl : List DBRow) : Prop :=
  ∃ full, permOf full ((tbl.filter (scopeFilter variant cc)).filter (fun r => tsM r.id)) ∧
    keyDesc (fun r => tsr r.id) full ∧ kl = full.take 50

/-- `search_hybrid(query_text, query_vector, variant, country_code, k)`:
`out` is an admissible result list for the final
`ORDER BY rrf_score DESC LIMIT :k`. -/
def searchAdmissible (tbl : List DBRow) (variant : String) (cc : Option String)
    (dist tsr : ℕ → ℚ) (tsM : ℕ → Bool) (k : ℕ) (out : List SearchHit) : Prop :=
  ∃ vl kl final, vecAdmissible tbl variant cc dist vl ∧
    kwAdmissible tbl variant cc tsr tsM kl ∧
    permOf final (candHits tbl vl kl) ∧
    keyDesc SearchHit.score final ∧
    out = final.take k

def distLe (dist : ℕ → ℚ) (a b : DBRow) : Prop := dist a.id ≤ dist b.id

def tsrGe (tsr : ℕ → ℚ) (a b : DBRow) : Prop := tsr b.id ≤ tsr a.id

def scoreGe (a b : SearchHit) : Prop := b.score ≤ a.score

instance (dist : ℕ → ℚ) : DecidableRel (distLe dist) :=
  fun a b => inferInstanceAs (Decidable (dist a.id ≤ dist b.id))

instance (tsr : ℕ → ℚ) : DecidableRel (tsrGe tsr) :=
  fun a b => inferInstanceAs (Decidable (tsr b.id ≤ tsr a.id))

instance : DecidableRel scoreGe :=
  fun a b => inferInstanceAs (Decidable (b.score ≤ a.score))

/-- The canonical vector candidate list (one admissible realization of
the `vector_search` CTE). -/
def canonVl (tbl : List DBRow) (variant : String) (cc : Option String)
    (dist : ℕ → ℚ) : List DBRow :=
  ((tbl.filter (scopeFilter variant cc)).insertionSort (distLe dist)).take 50

/-- The canonical keyword candidate list (one admissible realization of
the `keyword_search` CTE). -/
def canonKl (tbl : List DBRow) (variant : String) (cc : Option String)
    (tsr : ℕ → ℚ) (tsM : ℕ → Bool) : List DBRow :=
  (((tbl.filter (scopeFilter variant cc)).filter (fun r => tsM r.id)).insertionSort
    (tsrGe tsr)).take 50

def canonCands (tbl : List DBRow) (variant : String) (cc : Option String)
    (dist tsr : ℕ → ℚ) (tsM : ℕ → Bool) : List SearchHit :=
  candHits tbl (canonVl tbl variant cc dist) (canonKl tbl variant cc tsr tsM)

/-- The canonical execution of `search_hybrid`: each SQL `ORDER BY` is
realized by a concrete stable sort.  When all sort keys are pairwise
distinct this is the only admissible execution. -/
def canonSearch (tbl : List DBRow) (variant : String) (cc : Option String)
    (dist tsr : ℕ → ℚ) (tsM : ℕ → Bool) (k : ℕ) : List SearchHit :=
  ((canonCands tbl variant cc dist tsr tsM).insertionSort scoreGe).take k

/-- The reference RRF formula of the spec: the contribution of one
candidate list to a document's fused score is `1 / (r + 60)` where `r`
is the document's 1-based rank in that list, and `0` if absent. -/
def rrfContrib (l : List DBRow) (i : ℕ) : ℚ :=
  match l.findIdx? (fun r => r.id = i) with
  | some n => 1 / ((n : ℚ) + 1 + 60)
  | none => 0

/-- Fused score per the spec: the sum of both lists' contributions. -/
def rrfFused (vl kl : List DBRow) (i : ℕ) : ℚ := rrfContrib vl i + rrfContrib kl i

/-! ## Concrete fixtures used by witnesses and counterexamples -/

def exMeta0 : Meta := ⟨none, none, none, none⟩

def exRowA : DBRow := ⟨1, "A", "v", exMeta0⟩

def exRowB : DBRow := ⟨2, "B", "v", exMeta0⟩

def exTbl : List DBRow := [exRowA, exRowB]

def exDist : ℕ → ℚ := fun i => (i : ℚ)

def exTsr : ℕ → ℚ := fun i => if i = 2 then 1 else 0

def exTsM : ℕ → Bool := fun _ => true

/-- Keyword match hitting only row 1 (used for a tie-free execution). -/
def exTsM1 : ℕ → Bool := fun i => i = 1

/-- Keyword match hitting only row 2. -/
def exTsM2 : ℕ → Bool := fun i => i = 2

/-- The two fused hits of the tying execution on `exTbl`: row A is
ranked 1st by vector and 2nd by keyword, row B the other way around,
so both fuse to `1/61 + 1/62`. -/
def exHitA : SearchHit := ⟨"A", "v", exMeta0, 1/61 + 1/62⟩

def exHitB : SearchHit := ⟨"B", "v", exMeta0, 1/62 + 1/61⟩

/-- A row carrying both a country and the `official` type tag. -/
def exRowX : DBRow := ⟨3, "X", "v", ⟨some "BEL", some "official", none, none⟩⟩

/-! # Theorems -/

theorem permOf_iff {α} [DecidableEq α] {l₁ l₂ : List α} : permOf l₁ l₂ ↔ l₁.Perm l₂ :=
  (List.perm_iff_count).symm

/-! ## C2 — scope deletion -/

/-- Claim C2 counterexample: deleting the official scope (`country_code
= null`) removes a row whose metadata carries the non-null country
`"BEL"`, because that row is tagged `type = 'official'`. -/
theorem delete_official_removes_country_row :
    exRowX.meta.country = some "BEL" ∧
    delete_scoped_data [exRowX] "v" none = [] := by
  constructor
  · rfl
  · rfl

/-- Claim C2 (amended): `delete_scoped_data` with a specific country
removes exactly that variant's rows carrying that country (official,
country-null rows are never removed); with `country_code = null` it
removes exactly that variant's rows whose country is null or whose
metadata type is `'official'` — so a row combining a country with
`type = 'official'` is removed as well; rows of other variants are
always kept. -/
theorem delete_scoped_data_frame (tbl : List DBRow) (v : String) (r : DBRow)
    (hr : r ∈ tbl) :
    (∀ c, c ≠ "" →
      (r ∉ delete_scoped_data tbl v (some c) ↔ r.variant = v ∧ r.meta.country = some c)) ∧
    (r ∉ delete_scoped_data tbl v none ↔
      r.variant = v ∧ (r.meta.country = none ∨ r.meta.mtype = some "official")) ∧
    (∀ cc, r.variant ≠ v → r ∈ delete_scoped_data tbl v cc) ∧
    (∀ c, c ≠ "" → r.meta.country = none → r ∈ delete_scoped_data tbl v (some c)) ∧
    (r.meta.country ≠ none → r.meta.mtype ≠ some "official" →
      r ∈ delete_scoped_data tbl v none) := by
  have hmem : ∀ cc, r ∈ delete_scoped_data tbl v cc ↔ scopeFilter v cc r = false := by
    intro cc
    simp [delete_scoped_data, List.mem_filter, hr]
  refine ⟨?_, ?_, ?_, ?_, ?_⟩
  · intro c hc
    rw [hmem]
    simp [scopeFilter, truthyS, hc]
  · rw [hmem]
    simp only [scopeFilter, truthyS, officialCond, Bool.and_eq_false_iff]
    by_cases h1 : r.variant = v <;> by_cases h2 : r.meta.country = none <;>
      by_cases h3 : r.meta.mtype = some "official" <;> simp [h1, h2, h3]
  · intro cc hv
    rw [hmem]
    simp [scopeFilter, hv]
  · intro c hc hcountry
    rw [hmem]
    simp [scopeFilter, truthyS, hc, hcountry]
  · intro h1 h2
    rw [hmem]
    simp [scopeFilter, truthyS, officialCond, h1, h2]

/-- Witness for the amended C2 theorem at a concrete table. -/
theorem delete_scoped_data_frame_w :
    exRowA ∈ exTbl ∧ exRowA ∈ delete_scoped_data exTbl "v" (some "BEL") := by
  have h := delete_scoped_data_frame exTbl "v" exRowA (by decide)
  exact ⟨by decide, (h.2.2.2.1) "BEL" (by decide) (by decide)⟩

/-! ## C9 — full-text configuration agreement -/

/-- Claim C9: the full-text configuration written by `insert_batch` is
chosen from the record's `metadata.country` exactly as `search_hybrid`
chooses it from `country_code` (falsy ⇒ `english` stemming, truthy ⇒
neutral `simple`), so a scope's rows are indexed with the configuration
its queries use; and the searchable text is content plus the truthy
`rule` and `section` metadata joined by spaces. -/
theorem fts_config_agreement :
    (∀ m : Meta, insertFtsConfig m = searchFtsConfig m.country) ∧
    (∀ m : Meta, m.country = none → insertFtsConfig m = "english") ∧
    (∀ m : Meta, ∀ c, m.country = some c → c ≠ "" → insertFtsConfig m = "simple") ∧
    searchFtsConfig none = "english" ∧
    (∀ c, c ≠ "" → searchFtsConfig (some c) = "simple") ∧
    (∀ content co ty ru se, ru ≠ "" → se ≠ "" →
      searchText content ⟨co, ty, some ru, some se⟩ = content ++ " " ++ ru ++ " " ++ se) := by
  refine ⟨?_, ?_, ?_, rfl, ?_, ?_⟩
  · intro m
    rfl
  · intro m h
    simp [insertFtsConfig, truthyS, h]
  · intro m c h hc
    simp [insertFtsConfig, truthyS, h, hc]
  · intro c hc
    simp [searchFtsConfig, truthyS, hc]
  · intro content co ty ru se hru hse
    simp only [searchText, truthyS, hru, hse, decide_eq_true_eq, Bool.not_eq_true,
      decide_eq_false_iff_not, if_pos, Option.getD_some]
    simp [joinSpace, String.append_assoc]

/-- Witness for C9 at concrete values. -/
theorem fts_config_agreement_w :
    insertFtsConfig ⟨some "BEL", some "local", some "9.12", some "1 Objectives"⟩ = "simple" ∧
    searchText "body" ⟨none, none, some "9.12", some "1 Objectives"⟩ =
      "body" ++ " " ++ "9.12" ++ " " ++ "1 Objectives" := by
  refine ⟨?_, ?_⟩
  · exact (fts_config_agreement.2.2.1) _ "BEL" rfl (by decide)
  · exact (fts_config_agreement.2.2.2.2.2) "body" none none "9.12" "1 Objectives"
      (by decide) (by decide)

/-! ## C4 — the RRF score formula -/

theorem lookup_rankScores (i : ℕ) :
    ∀ (n : ℕ) (vl : List DBRow),
      lookupScore (rankScores n vl) i =
        ((List.findIdx? (fun r => r.id = i) vl n).map
          (fun m : ℕ => 1 / ((m : ℚ) + 61))).getD 0 := by
  intro n vl
  induction vl generalizing n with
  | nil => simp [lookupScore, rankScores]
  | cons r rs ih =>
      by_cases h : r.id = i
      · simp [lookupScore, rankScores, List.findIdx?_cons, h]
      · simp only [rankScores, lookupScore, List.findIdx?_cons, h, decide_eq_true_eq,
          if_neg, not_false_iff, decide_eq_false, ite_false]
        exact ih (n + 1)

theorem lookupScore_eq_rrfContrib (vl : List DBRow) (i : ℕ) :
    lookupScore (rankScores 0 vl) i = rrfContrib vl i := by
  rw [lookup_rankScores]
  unfold rrfContrib
  cases hIdx : List.findIdx? (fun r => r.id = i) vl with
  | none => simp [hIdx]
  | some m =>
      simp only [hIdx, Option.map_some', Option.getD_some, one_div]
      congr 1
      ring

/-- Claim C4: in every admissible execution of `search_hybrid`, both
candidate lists are capped at 50; each fused candidate's score is the
sum over the two lists of `1 / (r + 60)` for its 1-based rank `r`
(with 0 for absence); the output is sorted descending by fused score
and truncated to `k`; and the spec's reference values hold — rank 1 in
the vector list and absence from the keyword list fuse to `1/61`, rank
1 in both lists fuses to `2/61`. -/
theorem search_hybrid_rrf (tbl : List DBRow) (v : String) (cc : Option String)
    (dist tsr : ℕ → ℚ) (tsM : ℕ → Bool) (k : ℕ) (out : List SearchHit)
    (vl kl : List DBRow) (final : List SearchHit)
    (hv : vecAdmissible tbl v cc dist vl)
    (hk : kwAdmissible tbl v cc tsr tsM kl)
    (hperm : permOf final (candHits tbl vl kl))
    (hsort : keyDesc SearchHit.score final)
    (hout : out = final.take k) :
    vl.length ≤ 50 ∧ kl.length ≤ 50 ∧
    (∀ i ∈ candIds vl kl, ∀ h, hitOf tbl vl kl i = some h →
      h.score = rrfFused vl kl i) ∧
    keyDesc SearchHit.score out ∧
    out.length = min k final.length ∧
    (∀ i, vl.findIdx? (fun r => r.id = i) = some 0 →
      kl.findIdx? (fun r => r.id = i) = none → rrfFused vl kl i = 1 / 61) ∧
    (∀ i, vl.findIdx? (fun r => r.id = i) = some 0 →
      kl.findIdx? (fun r => r.id = i) = some 0 → rrfFused vl kl i = 2 / 61) := by
  obtain ⟨fullV, -, -, hvEq⟩ := hv
  obtain ⟨fullK, -, -, hkEq⟩ := hk
  refine ⟨?_, ?_, ?_, ?_, ?_, ?_, ?_⟩
  · rw [hvEq]
    exact List.length_take_le 50 fullV
  · rw [hkEq]
    exact List.length_take_le 50 fullK
  · intro i _ h hh
    unfold hitOf at hh
    cases hfind : tbl.find? (fun r => r.id = i) with
    | none => rw [hfind] at hh; simp at hh
    | some r =>
        rw [hfind] at hh
        simp only [Option.map_some', Option.some.injEq] at hh
        rw [← hh]
        show lookupScore (rankScores 0 vl) i + lookupScore (rankScores 0 kl) i =
          rrfFused vl kl i
        rw [lookupScore_eq_rrfContrib, lookupScore_eq_rrfContrib]
        rfl
  · rw [hout]
    exact List.Chain'.take hsort k
  · rw [hout]
    exact List.length_take k final
  · intro i h1 h2
    simp only [rrfFused, rrfContrib, h1, h2]
    norm_num
  · intro i h1 h2
    simp only [rrfFused, rrfContrib, h1, h2]
    norm_num

/-- Witness for C4: two concrete admissible executions realize the
`1/61` (vector-only, rank 1) and `2/61` (rank 1 in both) values. -/
theorem search_hybrid_rrf_w :
    rrfFused [exRowA, exRowB] [exRowB] 1 = 1 / 61 ∧
    rrfFused [exRowA, exRowB] [exRowA] 1 = 2 / 61 := by
  constructor
  · exact (search_hybrid_rrf exTbl "v" none exDist exTsr exTsM2 15
      (((candHits exTbl [exRowA, exRowB] [exRowB]).insertionSort scoreGe).take 15)
      [exRowA, exRowB] [exRowB]
      ((candHits exTbl [exRowA, exRowB] [exRowB]).insertionSort scoreGe)
      ⟨[exRowA, exRowB], by decide, by decide, by decide⟩
      ⟨[exRowB], by decide, by decide, by decide⟩
      (by decide) (by decide) rfl).2.2.2.2.2.1 1 (by decide) (by decide)
  · exact (search_hybrid_rrf exTbl "v" none exDist exTsr exTsM1 15
      (((candHits exTbl [exRowA, exRowB] [exRowA]).insertionSort scoreGe).take 15)
      [exRowA, exRowB] [exRowA]
      ((candHits exTbl [exRowA, exRowB] [exRowA]).insertionSort scoreGe)
      ⟨[exRowA, exRowB], by decide, by decide, by decide⟩
      ⟨[exRowA], by decide, by decide, by decide⟩
      (by decide) (by decide) rfl).2.2.2.2.2.2 1 (by decide) (by decide)

/-! ## C3 — tie handling in `search_hybrid` -/

/-- Claim C3 counterexample: on a two-row table where row A is ranked
1st by vector and 2nd by keyword and row B the reverse, both fused
scores are `1/61 + 1/62`, and the final `ORDER BY rrf_score DESC` (with
no secondary sort key) admits both output orders: the result is not
determined by the inputs. -/
theorem search_hybrid_tie_nondet :
    searchAdmissible exTbl "v" none exDist exTsr exTsM 15 [exHitA, exHitB] ∧
    searchAdmissible exTbl "v" none exDist exTsr exTsM 15 [exHitB, exHitA] ∧
    [exHitA, exHitB] ≠ [exHitB, exHitA] := by
  refine ⟨⟨[exRowA, exRowB], [exRowB, exRowA], [exHitA, exHitB],
      ⟨[exRowA, exRowB], by decide, by decide, by decide⟩,
      ⟨[exRowB, exRowA], by decide, by decide, by decide⟩,
      by decide, by decide, by decide⟩,
    ⟨[exRowA, exRowB], [exRowB, exRowA], [exHitB, exHitA],
      ⟨[exRowA, exRowB], by decide, by decide, by decide⟩,
      ⟨[exRowB, exRowA], by decide, by decide, by decide⟩,
      by decide, by decide, by decide⟩,
    by decide⟩

theorem eq_of_sorted_perm_distinct {α} (key : α → ℚ) {l₁ l₂ : List α}
    (hp : l₁.Perm l₂)
    (h₁ : l₁.Chain' fun a b => key a ≤ key b)
    (h₂ : l₂.Chain' fun a b => key a ≤ key b)
    (hd : l₁.Pairwise fun a b => key a ≠ key b) : l₁ = l₂ := by
  haveI : IsTrans α (fun a b => key a ≤ key b) := ⟨fun _ _ _ => le_trans⟩
  have p₁ : l₁.Pairwise (fun a b => key a ≤ key b) := List.chain'_iff_pairwise.mp h₁
  have p₂ : l₂.Pairwise (fun a b => key a ≤ key b) := List.chain'_iff_pairwise.mp h₂
  have hd₂ : l₂.Pairwise (fun a b => key a ≠ key b) :=
    (hp.pairwise_iff fun h => h.symm).mp hd
  haveI : IsAntisymm α (fun a b => key a < key b ∨ a = b) := by
    constructor
    intro a b h1 h2
    rcases h1 with h1 | h1
    · rcases h2 with h2 | h2
      · exact absurd h2 (asymm h1)
      · exact h2.symm
    · exact h1
  refine List.eq_of_perm_of_sorted (r := fun a b => key a < key b ∨ a = b) hp ?_ ?_
  · exact (p₁.and hd).imp fun h => Or.inl (lt_of_le_of_ne h.1 h.2)
  · exact (p₂.and hd₂).imp fun h => Or.inl (lt_of_le_of_ne h.1 h.2)

theorem eq_of_sorted_perm_distinct_ge {α} (key : α → ℚ) {l₁ l₂ : List α}
    (hp : l₁.Perm l₂)
    (h₁ : l₁.Chain' fun a b => key b ≤ key a)
    (h₂ : l₂.Chain' fun a b => key b ≤ key a)
    (hd : l₁.Pairwise fun a b => key a ≠ key b) : l₁ = l₂ :=
  eq_of_sorted_perm_distinct (fun x => -key x) hp
    (h₁.imp fun _ _ h => neg_le_neg h) (h₂.imp fun _ _ h => neg_le_neg h)
    (hd.imp fun h hneg => h (neg_injective hneg))

/-- Claim C3 (amended): `search_hybrid` is deterministic only up to
ties.  Whenever the external sort keys are tie-free — the distances of
the scoped rows, the `ts_rank` values of the matching rows, and the
fused scores of the joined candidates are pairwise distinct — every
admissible execution returns exactly the canonical result; with ties,
the order among equal keys is unconstrained (see the counterexample). -/
theorem search_hybrid_deterministic_mod_ties
    (tbl : List DBRow) (v : String) (cc : Option String) (dist tsr : ℕ → ℚ)
    (tsM : ℕ → Bool) (k : ℕ) (out : List SearchHit)
    (hd : (tbl.filter (scopeFilter v cc)).Pairwise fun a b => dist a.id ≠ dist b.id)
    (ht : ((tbl.filter (scopeFilter v cc)).filter fun r => tsM r.id).Pairwise
            fun a b => tsr a.id ≠ tsr b.id)
    (hs : (canonCands tbl v cc dist tsr tsM).Pairwise fun a b => a.score ≠ b.score)
    (hadm : searchAdmissible tbl v cc dist tsr tsM k out) :
    out = canonSearch tbl v cc dist tsr tsM k := by
  obtain ⟨vl, kl, final, hvAdm, hkAdm, hpF, hsF, hout⟩ := hadm
  obtain ⟨fullV, hpV, hsV, hvEq⟩ := hvAdm
  obtain ⟨fullK, hpK, hsK, hkEq⟩ := hkAdm
  have hpV' : fullV.Perm (tbl.filter (scopeFilter v cc)) := permOf_iff.mp hpV
  have hpK' : fullK.Perm ((tbl.filter (scopeFilter v cc)).filter fun r => tsM r.id) :=
    permOf_iff.mp hpK
  haveI : IsTrans DBRow fun a b : DBRow => dist a.id ≤ dist b.id := ⟨fun _ _ _ => le_trans⟩
  haveI : IsTotal DBRow (distLe dist) := ⟨fun a b => le_total _ _⟩
  haveI : IsTrans DBRow (distLe dist) := ⟨fun _ _ _ => le_trans⟩
  haveI : IsTrans DBRow fun a b : DBRow => tsr b.id ≤ tsr a.id :=
    ⟨fun _ _ _ hab hbc => le_trans hbc hab⟩
  haveI : IsTotal DBRow (tsrGe tsr) := ⟨fun a b => le_total (tsr b.id) (tsr a.id)⟩
  haveI : IsTrans DBRow (tsrGe tsr) := ⟨fun _ _ _ hab hbc => le_trans hbc hab⟩
  haveI : IsTotal SearchHit scoreGe := ⟨fun a b => le_total b.score a.score⟩
  haveI : IsTrans SearchHit scoreGe := ⟨fun _ _ _ hab hbc => le_trans hbc hab⟩
  haveI : IsTrans SearchHit fun a b : SearchHit => b.score ≤ a.score :=
    ⟨fun _ _ _ hab hbc => le_trans hbc hab⟩
  have hVsort2 : ((tbl.filter (scopeFilter v cc)).insertionSort (distLe dist)).Chain'
      fun a b : DBRow => dist a.id ≤ dist b.id := by
    rw [List.chain'_iff_pairwise]
    exact List.sorted_insertionSort (distLe dist) _
  have hVeq : fullV = (tbl.filter (scopeFilter v cc)).insertionSort (distLe dist) :=
    eq_of_sorted_perm_distinct (fun r : DBRow => dist r.id)
      (hpV'.trans (List.perm_insertionSort _ _).symm)
      (show fullV.Chain' fun a b : DBRow => dist a.id ≤ dist b.id from hsV)
      hVsort2
      ((hpV'.pairwise_iff fun h => h.symm).mpr hd)
  have hKsort2 : ((((tbl.filter (scopeFilter v cc)).filter fun r => tsM r.id).insertionSort
      (tsrGe tsr))).Chain' fun a b : DBRow => tsr b.id ≤ tsr a.id := by
    rw [List.chain'_iff_pairwise]
    exact List.sorted_insertionSort (tsrGe tsr) _
  have hKeq : fullK =
      (((tbl.filter (scopeFilter v cc)).filter fun r => tsM r.id).insertionSort
        (tsrGe tsr)) :=
    eq_of_sorted_perm_distinct_ge (fun r : DBRow => tsr r.id)
      (hpK'.trans (List.perm_insertionSort _ _).symm)
      (show fullK.Chain' fun a b : DBRow => tsr b.id ≤ tsr a.id from hsK)
      hKsort2
      ((hpK'.pairwise_iff fun h => h.symm).mpr ht)
  have hvl : vl = canonVl tbl v cc dist := by rw [hvEq, hVeq]; rfl
  have hkl : kl = canonKl tbl v cc tsr tsM := by rw [hkEq, hKeq]; rfl
  have hpF' : final.Perm (canonCands tbl v cc dist tsr tsM) := by
    rw [canonCands, ← hvl, ← hkl]
    exact permOf_iff.mp hpF
  have hFsort2 : ((canonCands tbl v cc dist tsr tsM).insertionSort scoreGe).Chain'
      fun a b : SearchHit => b.score ≤ a.score := by
    rw [List.chain'_iff_pairwise]
    exact List.sorted_insertionSort scoreGe _
  have hFeq : final = (canonCands tbl v cc dist tsr tsM).insertionSort scoreGe :=
    eq_of_sorted_perm_distinct_ge SearchHit.score
      (hpF'.trans (List.perm_insertionSort _ _).symm)
      (show final.Chain' fun a b : SearchHit => b.score ≤ a.score from hsF)
      hFsort2
      ((hpF'.pairwise_iff fun h => h.symm).mpr hs)
  rw [hout, hFeq]
  rfl

/-- Witness for the amended C3 theorem: a tie-free execution on the
concrete two-row table is pinned to the canonical result. -/
theorem search_hybrid_deterministic_mod_ties_w :
    ((canonCands exTbl "v" none exDist exTsr exTsM2).insertionSort scoreGe).take 15 =
      canonSearch exTbl "v" none exDist exTsr exTsM2 15 := by
  exact search_hybrid_deterministic_mod_ties exTbl "v" none exDist exTsr exTsM2 15 _
    (by decide) (by decide) (by decide)
    ⟨canonVl exTbl "v" none exDist, canonKl exTbl "v" none exTsr exTsM2,
      (canonCands exTbl "v" none exDist exTsr exTsM2).insertionSort scoreGe,
      ⟨[exRowA, exRowB], by decide, by decide, by decide⟩,
      ⟨[exRowB], by decide, by decide, by decide⟩,
      by decide, by decide, rfl⟩

/-! ## Pattern exclusion lemmas

The four regexes of `_layout_chunking` are mutually exclusive in the
ways the per-block precedence relies on: a rule-header match is never a
chapter, section, or standalone-number match, and a standalone-number
match is never anything else.
-/

theorem toLower_of_digit {c : Char} (h : isDigitC c = true) : c.toLower = c := by
  simp only [isDigitC, Bool.and_eq_true, decide_eq_true_eq] at h
  unfold Char.toLower
  rw [if_neg]
  simp only [Char.toNat] at h ⊢
  omega

theorem not_digit_of_lower_r {c : Char} (h : c.toLower = 'r') : isDigitC c = false := by
  cases hd : isDigitC c with
  | false => rfl
  | true =>
      have hc : c = 'r' := ((toLower_of_digit hd).symm).trans h
      rw [hc] at hd
      exact absurd hd (by decide)

theorem dottedNum_shape {l : List Char} {p : List Char × List Char}
    (h : dottedNum l = some p) : ∃ t, l = '.' :: t := by
  rw [dottedNum.eq_def] at h
  split at h
  · rename_i c rest
    exact ⟨c :: rest, rfl⟩
  · exact absurd h (by simp)

theorem headerMatch_pfx_some {l pfx rest : List Char}
    (hp : rulePfx l = some (pfx, rest)) :
    headerMatch l =
      (match numPart rest with
       | some (n, _) => some (pfx ++ n)
       | none =>
         match rest.takeWhile isDigitC with
         | [] => none
         | ds => some (pfx ++ ds)) := by
  unfold headerMatch
  rw [hp]

theorem headerMatch_pfx_none {l : List Char} (hp : rulePfx l = none) :
    headerMatch l = (numPart l).map Prod.fst := by
  unfold headerMatch
  rw [hp]

theorem numPart_shape {l n r : List Char} (h : numPart l = some (n, r)) :
    ∃ c rest, l = c :: rest ∧ isDigitC c = true ∧
      ((∃ t, rest = '.' :: t) ∨ ∃ c2 t, rest = c2 :: '.' :: t ∧ isDigitC c2 = true) := by
  cases l with
  | nil => simp [numPart] at h
  | cons c rest =>
      simp only [numPart] at h
      by_cases h1 : isNZDigit c
      · rw [if_pos h1] at h
        refine ⟨c, rest, rfl, digit_of_nz h1, ?_⟩
        cases hdn : dottedNum rest with
        | some p => exact Or.inl (dottedNum_shape hdn)
        | none =>
            rw [hdn] at h
            by_cases h2 : c = '1'
            · rw [if_pos h2] at h
              cases rest with
              | nil => exact absurd h (by simp)
              | cons c2 rest2 =>
                  have h' : (if isDigitC c2 then
                      (match dottedNum rest2 with
                       | some (d, r2) => some (c :: c2 :: d, r2)
                       | none => none)
                    else none) = some (n, r) := h
                  by_cases h3 : isDigitC c2
                  · rw [if_pos h3] at h'
                    cases hdn2 : dottedNum rest2 with
                    | some p2 =>
                        obtain ⟨t, ht⟩ := dottedNum_shape hdn2
                        exact Or.inr ⟨c2, t, by rw [ht], h3⟩
                    | none => rw [hdn2] at h'; exact absurd h' (by simp)
                  · rw [if_neg h3] at h'; exact absurd h' (by simp)
            · rw [if_neg h2] at h; exact absurd h (by simp)
      · rw [if_neg h1] at h
        exact absurd h (by simp)

theorem rulePfx_shape {l : List Char} {pfx rest : List Char}
    (h : rulePfx l = some (pfx, rest)) :
    ∃ a b c d rest0, l = a :: b :: c :: d :: rest0 ∧ a.toLower = 'r' ∧
      rest = rest0.dropWhile isWSC := by
  match l with
  | [] | [_] | [_, _] | [_, _, _] => simp [rulePfx] at h
  | a :: b :: c :: d :: rest0 =>
      rw [rulePfx] at h
      split_ifs at h with hcond
      · simp only [Bool.and_eq_true, decide_eq_true_eq] at hcond
        cases htk : rest0.takeWhile isWSC with
        | nil => rw [htk] at h; simp at h
        | cons w ws =>
            rw [htk] at h
            simp only [Option.some.injEq, Prod.mk.injEq] at h
            exact ⟨a, b, c, d, rest0, rfl, hcond.1.1.1, h.2.symm⟩

theorem takeWhile_eq_cons {p : Char → Bool} {l : List Char} {e : Char} {es : List Char}
    (h : l.takeWhile p = e :: es) : ∃ l', l = e :: l' ∧ p e = true := by
  cases l with
  | nil => simp [List.takeWhile] at h
  | cons x xs =>
      by_cases hp : p x
      · rw [List.takeWhile_cons, if_pos hp] at h
        obtain ⟨h1, -⟩ := List.cons.inj h
        exact ⟨xs, by rw [h1], by rw [← h1]; exact hp⟩
      · rw [List.takeWhile_cons, if_neg hp] at h
        simp at h

theorem chapter_false_of_digit_mem {l : List Char} {e : Char}
    (he : e ∈ l) (hd : isDigitC e = true) : chapterPatS ⟨l⟩ = false := by
  show (decide (4 ≤ l.length) && l.all fun c => isUpperC c || isWSC c) = false
  cases hall : l.all (fun c => isUpperC c || isWSC c) with
  | false => simp
  | true =>
      have := List.all_eq_true.mp hall e he
      rw [not_upper_of_digit hd, not_ws_of_digit hd] at this
      simp at this

theorem secnum_false_of_nondigit_mem {l : List Char} {e : Char}
    (he : e ∈ l) (hd : isDigitC e = false) : sectionNumPatS ⟨l⟩ = false := by
  show (!l.isEmpty && l.all isDigitC) = false
  cases hall : l.all isDigitC with
  | false => simp
  | true =>
      have := List.all_eq_true.mp hall e he
      rw [hd] at this
      simp at this

theorem section_false_of_head_nondigit {c : Char} {t : List Char}
    (hc : isDigitC c = false) : sectionPatS ⟨c :: t⟩ = false := by
  simp [sectionPatS, List.takeWhile_cons, hc]

theorem dropWhile_digits_append :
    ∀ (pre : List Char), (∀ c ∈ pre, isDigitC c = true) →
      ∀ t, (pre ++ '.' :: t).dropWhile isDigitC = '.' :: t := by
  intro pre hpre t
  induction pre with
  | nil => simp [List.dropWhile_cons, dot_not_digit]
  | cons c cs ih =>
      have hc : isDigitC c = true := hpre c (List.mem_cons_self c cs)
      rw [List.cons_append, List.dropWhile_cons, hc]
      exact ih fun x hx => hpre x (List.mem_cons_of_mem c hx)

theorem section_false_of_dot (pre t : List Char)
    (hpre : ∀ c ∈ pre, isDigitC c = true) :
    sectionPatS ⟨pre ++ '.' :: t⟩ = false := by
  have hdw := dropWhile_digits_append pre hpre t
  simp [sectionPatS, hdw, List.takeWhile_cons, dot_not_ws]

/-- A rule-header match is never a chapter header, a section header, or
a standalone section number. -/
theorem headerMatch_excl {l g : List Char} (h : headerMatch l = some g) :
    chapterPatS ⟨l⟩ = false ∧ sectionPatS ⟨l⟩ = false ∧ sectionNumPatS ⟨l⟩ = false := by
  cases hpfx : rulePfx l with
  | some pr =>
      obtain ⟨p1, p2⟩ := pr
      rw [headerMatch_pfx_some hpfx] at h
      obtain ⟨a, b, c, d, rest0, hl, ha, hrest⟩ := rulePfx_shape hpfx
      have hand : isDigitC a = false := not_digit_of_lower_r ha
      have hdig : ∃ e, e ∈ p2 ∧ isDigitC e = true := by
        cases hnp : numPart p2 with
        | some np =>
            obtain ⟨n1, r1⟩ := np
            obtain ⟨e, rst, he, hed, -⟩ := numPart_shape hnp
            exact ⟨e, by rw [he]; exact List.mem_cons_self e rst, hed⟩
        | none =>
            rw [hnp] at h
            cases htk : p2.takeWhile isDigitC with
            | nil => rw [htk] at h; simp at h
            | cons e es =>
                obtain ⟨l2, hl2, hpe⟩ := takeWhile_eq_cons htk
                exact ⟨e, by rw [hl2]; exact List.mem_cons_self e l2, hpe⟩
      obtain ⟨e, hemem, hed⟩ := hdig
      have hemem0 : e ∈ rest0 := (List.dropWhile_sublist isWSC).subset (hrest ▸ hemem)
      subst hl
      have heml : e ∈ a :: b :: c :: d :: rest0 :=
        List.mem_cons_of_mem a (List.mem_cons_of_mem b (List.mem_cons_of_mem c
          (List.mem_cons_of_mem d hemem0)))
      exact ⟨chapter_false_of_digit_mem heml hed,
        section_false_of_head_nondigit hand,
        secnum_false_of_nondigit_mem (List.mem_cons_self a _) hand⟩
  | none =>
      rw [headerMatch_pfx_none hpfx] at h
      obtain ⟨np, hnp, -⟩ := Option.map_eq_some'.mp h
      obtain ⟨n1, r1⟩ := np
      obtain ⟨c, rest, hl, hcd, hshape⟩ := numPart_shape hnp
      subst hl
      have hcm : c ∈ c :: rest := List.mem_cons_self c rest
      rcases hshape with ⟨t, ht⟩ | ⟨c2, t, ht, hc2⟩
      · subst ht
        refine ⟨chapter_false_of_digit_mem hcm hcd, ?_, ?_⟩
        · exact section_false_of_dot [c] t
            (by intro x hx; rw [List.mem_singleton.mp hx]; exact hcd)
        · exact secnum_false_of_nondigit_mem
            (List.mem_cons_of_mem c (List.mem_cons_self '.' t)) dot_not_digit
      · subst ht
        refine ⟨chapter_false_of_digit_mem hcm hcd, ?_, ?_⟩
        · exact section_false_of_dot [c, c2] t (by
            intro x hx
            rcases List.mem_cons.mp hx with rfl | hx2
            · exact hcd
            · rw [List.mem_singleton.mp hx2]; exact hc2)
        · exact secnum_false_of_nondigit_mem
            (List.mem_cons_of_mem c (List.mem_cons_of_mem c2 (List.mem_cons_self '.' t)))
            dot_not_digit

/-- A standalone-number match is never a chapter header, a section
header, or a rule header (in or out of the content zone). -/
theorem secnum_excl {s : String} (h : sectionNumPatS s = true) :
    chapterPatS s = false ∧ sectionPatS s = false ∧ headerMatchS s = none := by
  have h' : ¬s.data.isEmpty = true ∧ s.data.all isDigitC = true := by
    simpa [sectionNumPatS] using h
  have hall : ∀ c ∈ s.data, isDigitC c = true := List.all_eq_true.mp h'.2
  obtain ⟨e, t, het⟩ : ∃ e t, s.data = e :: t := by
    cases hd : s.data with
    | nil => rw [hd] at h'; simp at h'
    | cons e t => exact ⟨e, t, rfl⟩
  have hde : isDigitC e = true := hall e (by rw [het]; exact List.mem_cons_self e t)
  refine ⟨?_, ?_, ?_⟩
  · exact chapter_false_of_digit_mem (l := s.data) (by rw [het]; exact List.mem_cons_self e t) hde
  · have hr1 : s.data.dropWhile isDigitC = [] := by
      rw [List.dropWhile_eq_nil_iff]
      intro x hx
      rw [hall x hx]
    simp [sectionPatS, hr1]
  · have hpfx : rulePfx s.data = none := by
      cases hpf : rulePfx s.data with
      | none => rfl
      | some pr =>
          obtain ⟨p1, p2⟩ := pr
          obtain ⟨a, b2, c, d, rest0, hl, ha, -⟩ := rulePfx_shape hpf
          have : isDigitC a = true := hall a (by rw [hl]; exact List.mem_cons_self a _)
          rw [not_digit_of_lower_r ha] at this
          simp at this
    have hnp : numPart s.data = none := by
      cases hn : numPart s.data with
      | none => rfl
      | some np =>
          obtain ⟨n1, r1⟩ := np
          obtain ⟨c, rest, hl, -, hshape⟩ := numPart_shape hn
          have hdotmem : ('.' : Char) ∈ s.data := by
            rw [hl]
            rcases hshape with ⟨t2, ht2⟩ | ⟨c2, t2, ht2, -⟩
            · rw [ht2]; exact List.mem_cons_of_mem c (List.mem_cons_self '.' t2)
            · rw [ht2]
              exact List.mem_cons_of_mem c (List.mem_cons_of_mem c2 (List.mem_cons_self '.' t2))
          have := hall '.' hdotmem
          rw [dot_not_digit] at this
          simp at this
    rw [headerMatchS, headerMatch_pfx_none hpfx, hnp]
    rfl

/-! ## Step characterization lemmas for the chunker -/

theorem stepBlock_skip {v : String} {pn : ℤ} {st : CState} {b : RawBlock}
    (ht : stripS b.text = "") : stepBlock v pn st b = (st, []) := by
  unfold stepBlock
  rw [if_pos ht]

theorem stepBlock_no_pending {v : String} {pn : ℤ} {st : CState} {b : RawBlock}
    (hp : st.pending = none) (ht : ¬stripS b.text = "") :
    stepBlock v pn st b = coreStep v pn st (stripS b.text) b.verts := by
  unfold stepBlock
  rw [if_neg ht, hp]

theorem stepBlock_pending_title {v : String} {pn : ℤ} {st : CState} {b : RawBlock}
    {p : String} (hp : st.pending = some p) (ht : ¬stripS b.text = "")
    (hch : chapterPatS (stripS b.text) = false)
    (hhm : headerMatchS (stripS b.text) = none)
    (hnum : sectionNumPatS (stripS b.text) = false)
    (hlen : ¬40 < (stripS b.text).length)
    (hdot : endsDotS (stripS b.text) = false) :
    stepBlock v pn st b =
      ({ (flushIf v pn st).1 with sect := p ++ " " ++ stripS b.text, pending := none },
       (flushIf v pn st).2) := by
  unfold stepBlock
  rw [if_neg ht, hp]
  have h40 : decide (40 < (stripS b.text).length) = false := decide_eq_false hlen
  rw [hch, hhm, hnum, h40, hdot]
  rfl

theorem stepBlock_pending_fold {v : String} {pn : ℤ} {st : CState} {b : RawBlock}
    {p : String} (hp : st.pending = some p) (ht : ¬stripS b.text = "")
    (hcase : (chapterPatS (stripS b.text) || (headerMatchS (stripS b.text)).isSome ||
        sectionNumPatS (stripS b.text)) = true ∨
      (decide (40 < (stripS b.text).length) || endsDotS (stripS b.text)) = true) :
    stepBlock v pn st b =
      coreStep v pn { st with text := st.text ++ p ++ "\n", pending := none }
        (stripS b.text) b.verts := by
  unfold stepBlock
  rw [if_neg ht, hp]
  rcases hcase with hc | hc
  · rw [hc]
    rfl
  · rw [hc]
    simp only [Bool.not_true, Bool.and_false]
    rfl

theorem coreStep_chapter {v : String} {pn : ℤ} {st : CState} {t : String}
    {verts : List (ℚ × ℚ)} (hch : chapterPatS t = true) :
    coreStep v pn st t verts =
      ({ (flushIf v pn st).1 with chapter := t, rule := "General" },
       (flushIf v pn st).2) := by
  unfold coreStep
  rw [hch]
  rfl

theorem coreStep_section {v : String} {pn : ℤ} {st : CState} {t : String}
    {verts : List (ℚ × ℚ)} (hch : chapterPatS t = false) (hsec : sectionPatS t = true) :
    coreStep v pn st t verts =
      ({ (flushIf v pn st).1 with sect := t, rule := "General" },
       (flushIf v pn st).2) := by
  unfold coreStep
  rw [hch, hsec]
  rfl

theorem coreStep_rule {v : String} {pn : ℤ} {st : CState} {t : String}
    {verts : List (ℚ × ℚ)} {g : String}
    (hch : chapterPatS t = false) (hsec : sectionPatS t = false)
    (hz : inContentZone verts = true) (hm : headerMatchS t = some g) :
    coreStep v pn st t verts =
      ({ st with rule := g, text := t ++ " " },
       if 20 < st.text.length then [mkChunk v pn st] else []) := by
  unfold coreStep
  rw [hch, hsec, hz, hm]
  rfl

theorem coreStep_secnum {v : String} {pn : ℤ} {st : CState} {t : String}
    {verts : List (ℚ × ℚ)}
    (hch : chapterPatS t = false) (hsec : sectionPatS t = false)
    (hdr : (if inContentZone verts then headerMatchS t else none) = none)
    (hnum : sectionNumPatS t = true) :
    coreStep v pn st t verts = ({ st with pending := some t }, []) := by
  unfold coreStep
  rw [hch, hsec, hdr, hnum]
  rfl

theorem coreStep_plain {v : String} {pn : ℤ} {st : CState} {t : String}
    {verts : List (ℚ × ℚ)}
    (hch : chapterPatS t = false) (hsec : sectionPatS t = false)
    (hdr : (if inContentZone verts then headerMatchS t else none) = none)
    (hnum : sectionNumPatS t = false) :
    coreStep v pn st t verts = ({ st with text := st.text ++ t ++ "\n" }, []) := by
  unfold coreStep
  rw [hch, hsec, hdr, hnum]
  rfl

theorem flushIf_of_ne {v : String} {pn : ℤ} {st : CState} (h : ¬stripS st.text = "") :
    flushIf v pn st = ({ st with text := "" }, [mkChunk v pn st]) := by
  unfold flushIf
  rw [if_neg h]

theorem flushIf_of_eq {v : String} {pn : ℤ} {st : CState} (h : stripS st.text = "") :
    flushIf v pn st = (st, []) := by
  unfold flushIf
  rw [if_pos h]

theorem flushIf_rule (v : String) (pn : ℤ) (st : CState) :
    (flushIf v pn st).1.rule = st.rule := by
  unfold flushIf
  split_ifs <;> rfl

/-- The header-gating aid: whatever the zone, a block whose text has no
rule-header match never enters the rule branch. -/
theorem gate_none {verts : List (ℚ × ℚ)} {t : String} (h : headerMatchS t = none) :
    (if inContentZone verts then headerMatchS t else none) = none := by
  cases hz : inContentZone verts with
  | false => rfl
  | true => exact h

/-! ## C5 — content-zone gating of rule detection -/

/-- Claim C5: for every block whose stripped text matches the
rule-header pattern, when the block lies in the content zone (max
normalized y at most 0.95, with missing geometry counting as inside)
the chunker starts a new accumulation with `current_rule` set to the
matched group (flushing the old accumulation only when longer than 20);
when the block lies outside the zone, rule detection does not trigger
and the text is appended as ordinary content. -/
theorem rule_zone_gating (v : String) (pn : ℤ) (st : CState) (b : RawBlock) (g : String)
    (hp : st.pending = none) (ht : ¬stripS b.text = "")
    (hm : headerMatchS (stripS b.text) = some g) :
    (b.verts = [] → inContentZone b.verts = true) ∧
    (inContentZone b.verts = true →
      stepBlock v pn st b =
        ({ st with rule := g, text := stripS b.text ++ " " },
         if 20 < st.text.length then [mkChunk v pn st] else [])) ∧
    (inContentZone b.verts = false →
      stepBlock v pn st b = ({ st with text := st.text ++ stripS b.text ++ "\n" }, [])) := by
  obtain ⟨gl, hgl, -⟩ := Option.map_eq_some'.mp hm
  have hch : chapterPatS (stripS b.text) = false := (headerMatch_excl hgl).1
  have hsec : sectionPatS (stripS b.text) = false := (headerMatch_excl hgl).2.1
  have hnum : sectionNumPatS (stripS b.text) = false := (headerMatch_excl hgl).2.2
  refine ⟨?_, ?_, ?_⟩
  · intro hv
    rw [hv]
    rfl
  · intro hz
    rw [stepBlock_no_pending hp ht, coreStep_rule hch hsec hz hm]
  · intro hz
    rw [stepBlock_no_pending hp ht,
      coreStep_plain hch hsec (by rw [if_neg (by rw [hz]; exact Bool.false_ne_true)]) hnum]

/-- Witness for C5: `"Rule 9.12 Penalty Stroke"` in the content zone
starts a rule chunk; the same pattern in the footer zone is ordinary
text. -/
theorem rule_zone_gating_w :
    stepBlock "v" 1 initState ⟨"Rule 9.12 Penalty Stroke", [(1/10, 1/10), (9/10, 3/10)]⟩ =
      ({ initState with rule := "Rule 9.12", text := "Rule 9.12 Penalty Stroke " }, []) ∧
    stepBlock "v" 1 initState ⟨"9.12", [(1/10, 96/100), (9/10, 98/100)]⟩ =
      ({ initState with text := "9.12\n" }, []) := by
  constructor
  · rw [(rule_zone_gating "v" 1 initState _ "Rule 9.12" rfl (by decide) (by decide)).2.1
      (by decide)]
    decide
  · rw [(rule_zone_gating "v" 1 initState _ "9.12" rfl (by decide) (by decide)).2.2
      (by decide)]
    decide

/-! ## C10 — an unresolved trailing section number is dropped -/

/-- Claim C10: a standalone numeric block only sets
`pending_section_number` (emitting nothing and leaving the accumulation
untouched), and the end-of-stream flush ignores the pending number
entirely: it emits exactly the stripped accumulation when the raw
accumulation is non-empty, and nothing otherwise — so a pending number
alive at end of stream appears in no chunk. -/
theorem pending_number_dropped :
    (∀ (v : String) (pn : ℤ) (st : CState) (b : RawBlock),
      st.pending = none → ¬stripS b.text = "" → sectionNumPatS (stripS b.text) = true →
      stepBlock v pn st b = ({ st with pending := some (stripS b.text) }, [])) ∧
    (∀ (v : String) (shards : List Shard) (st : CState) (p : Option String),
      finalFlush v shards { st with pending := p } =
        finalFlush v shards { st with pending := none }) ∧
    (∀ (v : String) (shards : List Shard) (st : CState), st.text ≠ "" →
      finalFlush v shards st = [mkChunk v (lastPageNum shards) st]) ∧
    (∀ (v : String) (shards : List Shard) (st : CState), st.text = "" →
      finalFlush v shards st = []) := by
  refine ⟨?_, ?_, ?_, ?_⟩
  · intro v pn st b hp ht hnum
    obtain ⟨hch, hsec, hhm⟩ := secnum_excl hnum
    rw [stepBlock_no_pending hp ht, coreStep_secnum hch hsec (gate_none hhm) hnum]
  · intro v shards st p
    rfl
  · intro v shards st h
    unfold finalFlush
    rw [if_neg h]
  · intro v shards st h
    unfold finalFlush
    rw [if_pos h]

/-- Witness for C10 at a concrete trailing `"36"` block. -/
theorem pending_number_dropped_w :
    stepBlock "v" 1 initState ⟨"36", []⟩ = ({ initState with pending := some "36" }, []) ∧
    finalFlush "v" [] { initState with text := "Body text", pending := some "36" } =
      [mkChunk "v" 0 { initState with text := "Body text", pending := some "36" }] := by
  constructor
  · exact pending_number_dropped.1 "v" 1 initState ⟨"36", []⟩ rfl (by decide) (by decide)
  · exact pending_number_dropped.2.2.1 "v" []
      { initState with text := "Body text", pending := some "36" } (by decide)

/-! ## C6 — pending section-number resolution -/

/-- Claim C6 counterexample: with pending number `"7"`, the block
`"12 Equipment specifications are listed here."` is long and
period-terminated — the claim's \"otherwise\" branch — yet the fold-back
re-evaluation classifies it as a section header and `current_section`
changes, contradicting \"with no section change\". -/
theorem pending_fold_section_change_cex :
    (decide (40 < (stripS "12 Equipment specifications are listed here.").length) ||
      endsDotS (stripS "12 Equipment specifications are listed here.")) = true ∧
    (chapterPatS (stripS "12 Equipment specifications are listed here.") ||
      (headerMatchS (stripS "12 Equipment specifications are listed here.")).isSome ||
      sectionNumPatS (stripS "12 Equipment specifications are listed here.")) = false ∧
    ((stepBlock "v" 1 { initState with pending := some "7" }
        ⟨"12 Equipment specifications are listed here.", []⟩).1).sect =
      "12 Equipment specifications are listed here." ∧
    ({ initState with pending := some "7" } : CState).sect = "General" := by
  refine ⟨by decide, by decide, by decide, by decide⟩

/-- Claim C6 (amended): with a pending section number, a short
non-period block that matches no pattern resolves the section to
`"<number> <title>"` after a flush; otherwise the number is folded back
into the accumulation and the block is re-evaluated against the full
classification — so a fold-back block that is itself a section (or
chapter) header does change the section; only a fold-back block
matching no pattern leaves the section unchanged and is appended as
content. -/
theorem pending_resolution_amended :
    (∀ (v : String) (pn : ℤ) (st : CState) (b : RawBlock) (p : String),
      st.pending = some p → ¬stripS b.text = "" →
      chapterPatS (stripS b.text) = false → headerMatchS (stripS b.text) = none →
      sectionNumPatS (stripS b.text) = false → ¬40 < (stripS b.text).length →
      endsDotS (stripS b.text) = false →
      stepBlock v pn st b =
        ({ (flushIf v pn st).1 with sect := p ++ " " ++ stripS b.text, pending := none },
         (flushIf v pn st).2)) ∧
    (∀ (v : String) (pn : ℤ) (st : CState) (b : RawBlock) (p : String),
      st.pending = some p → ¬stripS b.text = "" →
      ((chapterPatS (stripS b.text) || (headerMatchS (stripS b.text)).isSome ||
          sectionNumPatS (stripS b.text)) = true ∨
        (decide (40 < (stripS b.text).length) || endsDotS (stripS b.text)) = true) →
      stepBlock v pn st b =
        coreStep v pn { st with text := st.text ++ p ++ "\n", pending := none }
          (stripS b.text) b.verts) ∧
    (∀ (v : String) (pn : ℤ) (st : CState) (b : RawBlock) (p : String),
      st.pending = some p → ¬stripS b.text = "" →
      chapterPatS (stripS b.text) = false → sectionPatS (stripS b.text) = false →
      headerMatchS (stripS b.text) = none → sectionNumPatS (stripS b.text) = false →
      (decide (40 < (stripS b.text).length) || endsDotS (stripS b.text)) = true →
      stepBlock v pn st b =
        ({ st with
            text := st.text ++ p ++ "\n" ++ stripS b.text ++ "\n"
            pending := none }, [])) := by
  refine ⟨?_, ?_, ?_⟩
  · intro v pn st b p hp ht hch hhm hnum hlen hdot
    exact stepBlock_pending_title hp ht hch hhm hnum hlen hdot
  · intro v pn st b p hp ht hcase
    exact stepBlock_pending_fold hp ht hcase
  · intro v pn st b p hp ht hch hsec hhm hnum hlook
    rw [stepBlock_pending_fold hp ht (Or.inr hlook),
      coreStep_plain hch hsec (gate_none hhm) hnum]

/-- Witness for the amended C6 theorem: `"7"` then `"Objectives"`
resolves to section `"7 Objectives"`; `"7"` then long period-ending
content folds `"7"` back into the accumulation. -/
theorem pending_resolution_amended_w :
    stepBlock "v" 1 { initState with pending := some "7" } ⟨"Objectives", []⟩ =
      ({ initState with sect := "7 Objectives", pending := none }, []) ∧
    stepBlock "v" 1 { initState with pending := some "7" }
        ⟨"The ball is round and it is hit with sticks.", []⟩ =
      ({ initState with
          text := "7\nThe ball is round and it is hit with sticks.\n"
          pending := none }, []) := by
  constructor
  · rw [pending_resolution_amended.1 "v" 1 { initState with pending := some "7" }
      ⟨"Objectives", []⟩ "7" rfl (by decide) (by decide) (by decide) (by decide)
      (by decide) (by decide)]
    decide
  · rw [pending_resolution_amended.2.2 "v" 1 { initState with pending := some "7" }
      ⟨"The ball is round and it is hit with sticks.", []⟩ "7" rfl (by decide)
      (by decide) (by decide) (by decide) (by decide) (by decide)]
    decide

/-! ## C7 — rule reset on chapter and section changes -/

/-- Claim C7 counterexample: a section change performed by
pending-number resolution (`"4"` then `"Objectives"`) does not reset
`current_rule`: the chunk emitted after it still carries the old rule
`"Rule 3.1"`, not `"General"`. -/
theorem rule_reset_cex :
    (layout_chunking
        [⟨[⟨1, [⟨"Rule 3.1 Something long enough here", []⟩, ⟨"4", []⟩,
          ⟨"Objectives", []⟩, ⟨"Body text here", []⟩]⟩]⟩] "v" fun _ => none).map
      (fun c => (c.rule, c.sect)) =
      [("Rule 3.1", "General"), ("Rule 3.1", "4 Objectives")] ∧
    ("Rule 3.1" : String) ≠ "General" := by
  constructor
  · decide
  · decide

/-- Claim C7 (amended): a chapter-header block and a section-header
block always reset `current_rule` to `"General"`; a section change via
pending-number resolution preserves `current_rule`. -/
theorem header_rule_reset_amended :
    (∀ (v : String) (pn : ℤ) (st : CState) (t : String) (verts : List (ℚ × ℚ)),
      chapterPatS t = true → ((coreStep v pn st t verts).1).rule = "General") ∧
    (∀ (v : String) (pn : ℤ) (st : CState) (t : String) (verts : List (ℚ × ℚ)),
      chapterPatS t = false → sectionPatS t = true →
      ((coreStep v pn st t verts).1).rule = "General") ∧
    (∀ (v : String) (pn : ℤ) (st : CState) (b : RawBlock) (p : String),
      st.pending = some p → ¬stripS b.text = "" →
      chapterPatS (stripS b.text) = false → headerMatchS (stripS b.text) = none →
      sectionNumPatS (stripS b.text) = false → ¬40 < (stripS b.text).length →
      endsDotS (stripS b.text) = false →
      ((stepBlock v pn st b).1).rule = st.rule ∧
      ((stepBlock v pn st b).1).sect = p ++ " " ++ stripS b.text) := by
  refine ⟨?_, ?_, ?_⟩
  · intro v pn st t verts hch
    rw [coreStep_chapter hch]
  · intro v pn st t verts hch hsec
    rw [coreStep_section hch hsec]
  · intro v pn st b p hp ht hch hhm hnum hlen hdot
    rw [stepBlock_pending_title hp ht hch hhm hnum hlen hdot]
    exact ⟨flushIf_rule v pn st, rfl⟩

/-- Witness for the amended C7 theorem at concrete header blocks. -/
theorem header_rule_reset_amended_w :
    ((coreStep "v" 1 { initState with rule := "Rule 9.12" } "THE PITCH" []).1).rule =
      "General" ∧
    ((coreStep "v" 1 { initState with rule := "Rule 9.12" } "1 Dimensions" []).1).rule =
      "General" ∧
    ((stepBlock "v" 1 { initState with rule := "Rule 9.12", pending := some "4" }
        ⟨"Objectives", []⟩).1).rule = "Rule 9.12" := by
  refine ⟨?_, ?_, ?_⟩
  · exact header_rule_reset_amended.1 "v" 1 _ "THE PITCH" [] (by decide)
  · exact header_rule_reset_amended.2.1 "v" 1 _ "1 Dimensions" [] (by decide) (by decide)
  · exact (header_rule_reset_amended.2.2 "v" 1 _ ⟨"Objectives", []⟩ "4" rfl (by decide)
      (by decide) (by decide) (by decide) (by decide) (by decide)).1

/-! ## C1 — accumulated text is not always flushed -/

/-- Claim C1 counterexample: the accumulation `"Hi.\n"` (non-empty) is
discarded when the rule header `"Rule 2.1 x"` arrives, because its
length (4) is not greater than 20: the whole run emits a single chunk
that does not contain it. -/
theorem accumulation_loss_cex :
    (layout_chunking [⟨[⟨1, [⟨"Hi.", []⟩, ⟨"Rule 2.1 x", []⟩]⟩]⟩] "v" fun _ => none).map
      Chunk.content = ["Rule 2.1 x"] ∧
    (stepBlock "v" 1 initState ⟨"Hi.", []⟩).1.text = "Hi.\n" ∧
    stripS "Hi.\n" ≠ "" := by
  refine ⟨by decide, by decide, by decide⟩

/-- Claim C1 (amended): the accumulation is emitted as a chunk on a
content-type change, a chapter header, a section header, a
pending-section resolution (whenever it strips to non-empty) and at
end-of-stream (whenever it is non-empty); on a rule header it is
emitted only when its raw length exceeds 20 characters — a shorter
non-empty accumulation is replaced by the header text and lost. -/
theorem accumulation_flush_amended :
    (∀ (v : String) (pn : ℤ) (st : CState) (pct : String),
      ¬pct = st.ctype → ¬stripS st.text = "" →
      ctFlush v pn st pct =
        ({ st with text := "", ctype := pct },
         [mkChunk v (if 1 < pn then pn - 1 else 1) st])) ∧
    (∀ (v : String) (pn : ℤ) (st : CState) (t : String) (verts : List (ℚ × ℚ)),
      chapterPatS t = true → ¬stripS st.text = "" →
      (coreStep v pn st t verts).2 = [mkChunk v pn st]) ∧
    (∀ (v : String) (pn : ℤ) (st : CState) (t : String) (verts : List (ℚ × ℚ)),
      chapterPatS t = false → sectionPatS t = true → ¬stripS st.text = "" →
      (coreStep v pn st t verts).2 = [mkChunk v pn st]) ∧
    (∀ (v : String) (pn : ℤ) (st : CState) (b : RawBlock) (p : String),
      st.pending = some p → ¬stripS b.text = "" →
      chapterPatS (stripS b.text) = false → headerMatchS (stripS b.text) = none →
      sectionNumPatS (stripS b.text) = false → ¬40 < (stripS b.text).length →
      endsDotS (stripS b.text) = false → ¬stripS st.text = "" →
      (stepBlock v pn st b).2 = [mkChunk v pn st]) ∧
    (∀ (v : String) (pn : ℤ) (st : CState) (t : String) (verts : List (ℚ × ℚ)) (g : String),
      chapterPatS t = false → sectionPatS t = false →
      inContentZone verts = true → headerMatchS t = some g →
      (coreStep v pn st t verts).2 =
        (if 20 < st.text.length then [mkChunk v pn st] else []) ∧
      ((coreStep v pn st t verts).1).text = t ++ " ") ∧
    (∀ (v : String) (shards : List Shard) (st : CState), st.text ≠ "" →
      finalFlush v shards st = [mkChunk v (lastPageNum shards) st]) := by
  refine ⟨?_, ?_, ?_, ?_, ?_, ?_⟩
  · intro v pn st pct hne htext
    unfold ctFlush
    rw [if_neg hne, if_neg htext]
  · intro v pn st t verts hch htext
    rw [coreStep_chapter hch, flushIf_of_ne htext]
  · intro v pn st t verts hch hsec htext
    rw [coreStep_section hch hsec, flushIf_of_ne htext]
  · intro v pn st b p hp ht hch hhm hnum hlen hdot htext
    rw [stepBlock_pending_title hp ht hch hhm hnum hlen hdot, flushIf_of_ne htext]
  · intro v pn st t verts g hch hsec hz hm
    rw [coreStep_rule hch hsec hz hm]
    exact ⟨rfl, rfl⟩
  · intro v shards st h
    unfold finalFlush
    rw [if_neg h]

/-- Witness for the amended C1 theorem at concrete flush sites. -/
theorem accumulation_flush_amended_w :
    (coreStep "v" 1 { initState with text := "Some body text.\n" } "THE PITCH" []).2 =
      [mkChunk "v" 1 { initState with text := "Some body text.\n" }] ∧
    (coreStep "v" 1 { initState with text := "Short\n" } "Rule 2.1 x" []).2 = [] := by
  constructor
  · exact accumulation_flush_amended.2.1 "v" 1 _ "THE PITCH" [] (by decide) (by decide)
  · rw [(accumulation_flush_amended.2.2.2.2.1 "v" 1 { initState with text := "Short\n" }
      "Rule 2.1 x" [] "Rule 2.1" (by decide) (by decide) (by decide) (by decide)).1]
    decide

/-! ## C8 — the Block Geometry Sorter on disjoint rows -/

theorem rowsGo_extend (ref : Enh) (xs : List Enh) :
    ∀ (cur rest : List Enh), (∀ x ∈ xs, inBand ref x = true) →
      rowsGo (ref :: cur) (xs ++ rest) = rowsGo (ref :: (cur ++ xs)) rest := by
  induction xs with
  | nil => intro cur rest _; rw [List.nil_append, List.append_nil]
  | cons y ys ih =>
      intro cur rest hxs
      rw [List.cons_append]
      show rowsGo (ref :: cur) (y :: (ys ++ rest)) = _
      rw [rowsGo]
      simp only [hxs y (List.mem_cons_self y ys), if_true]
      rw [show (ref :: cur) ++ [y] = ref :: (cur ++ [y]) from rfl]
      rw [ih (cur ++ [y]) rest fun x hx => hxs x (List.mem_cons_of_mem y hx)]
      rw [List.append_assoc]
      rfl

theorem rowsGo_break (ref : Enh) (cur : List Enh) (y : Enh) (ys : List Enh)
    (hy : inBand ref y = false) :
    rowsGo (ref :: cur) (y :: ys) = sortLeft (ref :: cur) ++ rowsGo [y] ys := by
  rw [rowsGo]
  simp only [hy]
  rfl

theorem inBand_of_uniform {x yy : Enh} (ht : yy.top = x.top) (hb : yy.bottom = x.bottom)
    (hwf : x.top ≤ x.bottom) : inBand x yy = true := by
  simp only [inBand, centerY, ht, hb, Bool.and_eq_true, decide_eq_true_eq]
  constructor <;> linarith

theorem not_inBand_of_below {x y : Enh} (hwf : y.top ≤ y.bottom)
    (hsep : x.bottom < y.top) : inBand x y = false := by
  simp only [inBand, centerY, Bool.and_eq_false_iff, decide_eq_false_iff_not, not_le]
  right
  linarith

theorem groupRows_disjoint :
    ∀ rows : List (List Enh),
      (∀ row ∈ rows, row ≠ []) →
      (∀ row ∈ rows, ∀ a ∈ row, ∀ c ∈ row, a.top = c.top ∧ a.bottom = c.bottom) →
      (∀ row ∈ rows, ∀ a ∈ row, a.top ≤ a.bottom) →
      rows.Pairwise (fun r₁ r₂ => ∀ a ∈ r₁, ∀ c ∈ r₂, a.bottom < c.top) →
      groupRows rows.flatten = (rows.map sortLeft).flatten := by
  intro rows
  induction rows with
  | nil => intro _ _ _ _; rfl
  | cons row rest ih =>
      intro hne huni hwf hsep
      obtain ⟨x, xs, rfl⟩ : ∃ x xs, row = x :: xs := by
        cases row with
        | nil => exact absurd rfl (hne [] (List.mem_cons_self _ _))
        | cons x xs => exact ⟨x, xs, rfl⟩
      have hrowmem : (x :: xs) ∈ (x :: xs) :: rest := List.mem_cons_self _ _
      have hxwf : x.top ≤ x.bottom :=
        hwf _ hrowmem x (List.mem_cons_self x xs)
      have hband : ∀ yy ∈ xs, inBand x yy = true := by
        intro yy hyy
        have h1 := huni _ hrowmem yy (List.mem_cons_of_mem x hyy) x (List.mem_cons_self x xs)
        exact inBand_of_uniform h1.1 h1.2 hxwf
      have hstep : groupRows ((x :: xs) :: rest).flatten = rowsGo (x :: xs) rest.flatten := by
        rw [List.flatten_cons, List.cons_append]
        show rowsGo [x] (xs ++ rest.flatten) = _
        rw [rowsGo_extend x xs [] rest.flatten hband, List.nil_append]
      rw [hstep]
      cases rest with
      | nil =>
          show sortLeft (x :: xs) = _
          simp
      | cons row2 rest2 =>
          obtain ⟨y, ys, rfl⟩ : ∃ y ys, row2 = y :: ys := by
            cases row2 with
            | nil =>
                exact absurd rfl (hne [] (List.mem_cons_of_mem _ (List.mem_cons_self _ _)))
            | cons y ys => exact ⟨y, ys, rfl⟩
          have hywf : y.top ≤ y.bottom :=
            hwf _ (List.mem_cons_of_mem _ (List.mem_cons_self _ _)) y (List.mem_cons_self y ys)
          have hxy : x.bottom < y.top := by
            have := List.rel_of_pairwise_cons hsep (List.mem_cons_self _ _)
            exact this x (List.mem_cons_self x xs) y (List.mem_cons_self y ys)
          have hnb : inBand x y = false := not_inBand_of_below hywf hxy
          rw [List.flatten_cons, List.cons_append]
          rw [rowsGo_break x xs y (ys ++ rest2.flatten) hnb]
          have hrec : rowsGo [y] (ys ++ rest2.flatten) =
              (((y :: ys) :: rest2).map sortLeft).flatten := by
            have hgr : groupRows ((y :: ys) :: rest2).flatten =
                rowsGo [y] (ys ++ rest2.flatten) := by
              rw [List.flatten_cons, List.cons_append]
              rfl
            rw [← hgr]
            exact ih (fun r hr => hne r (List.mem_cons_of_mem _ hr))
              (fun r hr => huni r (List.mem_cons_of_mem _ hr))
              (fun r hr => hwf r (List.mem_cons_of_mem _ hr))
              ((List.pairwise_cons.mp hsep).2)
          rw [hrec]
          rfl

theorem sortTop_disjoint_eq (rows : List (List Enh))
    (huni : ∀ row ∈ rows, ∀ a ∈ row, ∀ c ∈ row, a.top = c.top ∧ a.bottom = c.bottom)
    (hwf : ∀ row ∈ rows, ∀ a ∈ row, a.top ≤ a.bottom)
    (hsep : rows.Pairwise fun r₁ r₂ => ∀ a ∈ r₁, ∀ c ∈ r₂, a.bottom < c.top) :
    sortTop rows.flatten = rows.flatten := by
  unfold sortTop
  apply List.Sorted.insertionSort_eq
  show List.Pairwise topLe rows.flatten
  rw [List.pairwise_flatten]
  constructor
  · intro row hrow
    apply List.pairwise_of_forall_mem_list
    intro a ha c hc
    exact le_of_eq (huni row hrow a ha c hc).1
  · refine hsep.imp_of_mem ?_
    intro r₁ r₂ h1 h2 hrel a ha c hc
    have : a.top ≤ a.bottom := hwf r₁ h1 a ha
    exact le_trans this (le_of_lt (hrel a ha c hc))

/-- Claim C8: the Block Geometry Sorter is the reference pipeline —
stably sort by top-y, greedily group into rows by the
center-within-reference-band test, sort each row by left-x; missing
geometry defaults to `(top, bottom, left) = (0, 0, 0)` and such a block
is placed first by the top sort (given normalized coordinates); and for
blocks arranged in disjoint, non-overlapping rows the output is exactly
the rows top-to-bottom, each sorted left-to-right (ties stable). -/
theorem visual_sorter_reference :
    (∀ blocks : List RawBlock,
      sort_blocks_visually blocks = (groupRows (sortTop (blocks.map enhance))).map Enh.blk) ∧
    (∀ b : RawBlock, b.verts = [] → enhance b = ⟨b, 0, 0, 0⟩) ∧
    (∀ (b : RawBlock) (l : List RawBlock), b.verts = [] →
      (∀ e ∈ l.map enhance, 0 ≤ e.top) →
      sortTop ((b :: l).map enhance) = enhance b :: sortTop (l.map enhance)) ∧
    (∀ rows : List (List Enh),
      (∀ row ∈ rows, row ≠ []) →
      (∀ row ∈ rows, ∀ a ∈ row, ∀ c ∈ row, a.top = c.top ∧ a.bottom = c.bottom) →
      (∀ row ∈ rows, ∀ a ∈ row, a.top ≤ a.bottom) →
      rows.Pairwise (fun r₁ r₂ => ∀ a ∈ r₁, ∀ c ∈ r₂, a.bottom < c.top) →
      groupRows (sortTop rows.flatten) = (rows.map sortLeft).flatten) := by
  refine ⟨fun _ => rfl, ?_, ?_, ?_⟩
  · intro b hb
    unfold enhance
    rw [hb]
  · intro b l hb h0
    unfold sortTop
    rw [List.map_cons]
    show List.orderedInsert topLe (enhance b) (List.insertionSort topLe (l.map enhance)) = _
    cases hs : List.insertionSort topLe (l.map enhance) with
    | nil => rfl
    | cons y ys =>
        rw [List.orderedInsert_of_le]
        have hy : y ∈ l.map enhance := by
          rw [← List.mem_insertionSort (r := topLe), hs]
          exact List.mem_cons_self y ys
        have hb0 : (enhance b).top = 0 := by
          unfold enhance
          rw [hb]
        show (enhance b).top ≤ y.top
        rw [hb0]
        exact h0 y hy
  · intro rows hne huni hwf hsep
    rw [sortTop_disjoint_eq rows huni hwf hsep]
    exact groupRows_disjoint rows hne huni hwf hsep

/-- Witness for C8: two clean rows, the first holding two blocks with
swapped left order. -/
theorem visual_sorter_reference_w :
    groupRows (sortTop [⟨⟨"b1", []⟩, 0, 1, 5⟩, ⟨⟨"b2", []⟩, 0, 1, 2⟩,
        ⟨⟨"b3", []⟩, 2, 3, 0⟩]) =
      [⟨⟨"b2", []⟩, 0, 1, 2⟩, ⟨⟨"b1", []⟩, 0, 1, 5⟩, ⟨⟨"b3", []⟩, 2, 3, 0⟩] := by
  have h := visual_sorter_reference.2.2.2
    [[⟨⟨"b1", []⟩, 0, 1, 5⟩, ⟨⟨"b2", []⟩, 0, 1, 2⟩], [⟨⟨"b3", []⟩, 2, 3, 0⟩]]
    (by decide) (by decide) (by decide) (by decide)
  rw [show ([[⟨⟨"b1", []⟩, 0, 1, 5⟩, ⟨⟨"b2", []⟩, 0, 1, 2⟩],
      [⟨⟨"b3", []⟩, 2, 3, 0⟩]] : List (List Enh)).flatten =
    [⟨⟨"b1", []⟩, 0, 1, 5⟩, ⟨⟨"b2", []⟩, 0, 1, 2⟩, ⟨⟨"b3", []⟩, 2, 3, 0⟩] from rfl] at h
  rw [h]
  decide

end FihRules
